import Mathlib

/-!
# Verification of the opencode-chat event-ingestion and fan-out core

This development embeds, in Lean, the state-reconciliation core of the
opencode-chat proxy: the per-session state store and its merge rules
(`OpenCodeClient.handleEvent` in `src/pages/PlaygroundSimple.tsx`), the
permission queue and `respondToPermission`, the reconnect backoff of
`connect`/`reconnect`, the `/stream` subscribe behaviour of `src/server.ts`,
and the buffering gate invoked by `src/server.ts`.

JavaScript `Record<string, T>` objects are embedded as insertion-ordered
association lists, JavaScript's stable `Array.prototype.sort` as
`List.insertionSort` (stable sorts with the same total comparator agree),
`Date.now()` as an explicitly passed `now : Nat`, and optional / absent JSON
fields as `Option`.
-/

namespace OpencodeChat

/-! ## JavaScript object (string-keyed record) operations -/

/-- Lookup `r[k]` on a JS object embedded as an association list. -/
def rget {α : Type} (r : List (String × α)) (k : String) : Option α :=
  (r.find? (fun p => p.1 = k)).map (·.2)

/-- Assignment `r[k] = v`: keeps the position of an existing key (JS property
order), appends a fresh key at the end. -/
def rset {α : Type} (r : List (String × α)) (k : String) (v : α) :
    List (String × α) :=
  if r.any (fun p => p.1 = k) then
    r.map (fun p => if p.1 = k then (k, v) else p)
  else r ++ [(k, v)]

/-- `delete r[k]`. -/
def rdel {α : Type} (r : List (String × α)) (k : String) : List (String × α) :=
  r.filter (fun p => ¬ p.1 = k)

/-! ## Data model (from `src/types.ts` and the client's interfaces) -/

/-- `"user" | "assistant" | "system"` -/
inductive Role
  | user | assistant | system
deriving DecidableEq, Repr

/-- Status of a tool part's state machine:
`"pending" | "running" | "completed" | "error"`. -/
inductive ToolStatus
  | pending | running | completed | error
deriving DecidableEq, Repr

/-- `MessagePart.state` from `src/types.ts`; `input`/`metadata` are opaque
JSON (`any`), embedded as strings. -/
structure ToolPartState where
  status : ToolStatus
  input : Option String := none
  output : Option String := none
  error : Option String := none
  metadata : Option String := none
  timeStart : Option Nat := none
  timeEnd : Option Nat := none
deriving DecidableEq, Repr

/-- `"text" | "tool" | "step-start" | "step-finish"` -/
inductive PartType
  | text | tool | stepStart | stepFinish
deriving DecidableEq, Repr

/-- `MessagePart` from `src/types.ts`. -/
structure MessagePart where
  id : String
  messageID : String
  sessionID : String
  type : PartType
  text : Option String := none
  tool : Option String := none
  callID : Option String := none
  state : Option ToolPartState := none
  title : Option String := none
  tokens : Option String := none
  cost : Option Rat := none
deriving DecidableEq, Repr

/-- `Message.info` from `src/types.ts`. -/
structure MessageInfo where
  id : String
  role : Role
  sessionID : String
  modelID : Option String := none
  providerID : Option String := none
  cost : Option Rat := none
  tokensInput : Option Nat := none
  tokensOutput : Option Nat := none
  tokensReasoning : Option Nat := none
  timeCreated : Option Nat := none
  timeCompleted : Option Nat := none
deriving DecidableEq, Repr

/-- `Message` from `src/types.ts`: `info` is optional. -/
structure Message where
  info : Option MessageInfo
  parts : List MessagePart
deriving DecidableEq, Repr

/-- `Permission` from `src/types.ts`. -/
structure Permission where
  id : String
  type : String
  pattern : Option String := none
  sessionID : String
  messageID : Option String := none
  callID : Option String := none
  title : String
  metadata : List (String × String) := []
  timeCreated : Option Nat := none
deriving DecidableEq, Repr

/-- `PermissionsState` from the client in `src/pages/PlaygroundSimple.tsx`. -/
structure PermissionsState where
  byId : List (String × Permission)
  queue : List String
  activeId : Option String := none
deriving DecidableEq, Repr

/-- `ToolEntry` from the client: `tool` is typed `string` but is read off the
part as `(part as any).tool`, which may be absent. -/
structure ToolEntry where
  callID : String
  messageID : String
  partID : String
  tool : Option String
  state : ToolPartState
deriving DecidableEq, Repr

/-- `SessionState` from the client. -/
structure SessionState where
  messages : List Message
  permissions : PermissionsState
  toolsByCall : List (String × ToolEntry)
  lastUpdate : Nat
deriving DecidableEq, Repr

/-- The typed upstream events `handleEvent` dispatches on, each carrying the
`properties` fields the code reads. `unknownEvent` stands for any other
`type` string (with whatever session id `extractSessionId` can find). -/
inductive Event
  | messageUpdated (info : MessageInfo)
  | messageRemoved (sessionID messageID : String)
  | partUpdated (part : MessagePart)
  | partRemoved (sessionID messageID partID : String)
  | permissionUpdated (perm : Permission)
  | permissionReplied (sessionID permissionID : String)
  | sessionDeleted (sessionID : String)
  | unknownEvent (type : String) (sessionID : Option String)
deriving DecidableEq, Repr

/-- `"once" | "always" | "reject"` -/
inductive PermissionResponse
  | once | always | reject
deriving DecidableEq, Repr

/-! ## Merge algorithm (`OpenCodeClient.handleEvent` and helpers) -/

/-- JS truthiness of an optional string: `undefined` and `""` are falsy. -/
def isTruthyStr : Option String → Bool
  | none => false
  | some s => ¬ s = ""

/-- `m.info?.id` -/
def msgId (m : Message) : Option String := m.info.map (·.id)

/-- The sort key `a.info?.time?.created || 0`. -/
def msgCreated (m : Message) : Nat := ((m.info.bind (·.timeCreated)).getD 0)

/-- The comparator `(a, b) => (a.info?.time?.created || 0) - (b.info?.time?.created || 0)`
sorts ascending by `msgCreated`. -/
def msgLE (a b : Message) : Prop := msgCreated a ≤ msgCreated b

instance : DecidableRel msgLE := fun a b => Nat.decLe (msgCreated a) (msgCreated b)

instance : IsTotal Message msgLE := ⟨fun a b => Nat.le_total (msgCreated a) (msgCreated b)⟩

instance : IsTrans Message msgLE := ⟨fun _ _ _ => Nat.le_trans⟩

/-- `state.messages.sort((a, b) => ...)`: JS `Array.prototype.sort` is stable,
and a stable sort is determined by its comparator, so `insertionSort` (stable)
embeds it. -/
def sortMessages (ms : List Message) : List Message := ms.insertionSort msgLE

/-- Update the first list element satisfying `p` (as `find` + in-place
mutation does); `none` when no element matches. -/
def updateFirstBy {α : Type} (p : α → Bool) (f : α → α) : List α → Option (List α)
  | [] => none
  | x :: xs => if p x then some (f x :: xs) else (updateFirstBy p f xs).map (x :: ·)

/-- Remove the first list element satisfying `p` (as `findIndex` + `splice`
does), returning it; `none` when no element matches. -/
def removeFirstBy {α : Type} (p : α → Bool) : List α → Option (α × List α)
  | [] => none
  | x :: xs =>
    if p x then some (x, xs) else (removeFirstBy p xs).map (fun q => (q.1, x :: q.2))

/-- `Object.assign(existingPart, part)` where `part` was produced by
`JSON.parse`: fields absent on the event part (`none`) are not own properties
and hence keep the existing part's value; present fields overwrite. -/
def assignPart (old p : MessagePart) : MessagePart :=
  { id := p.id
    messageID := p.messageID
    sessionID := p.sessionID
    type := p.type
    text := p.text.or old.text
    tool := p.tool.or old.tool
    callID := p.callID.or old.callID
    state := p.state.or old.state
    title := p.title.or old.title
    tokens := p.tokens.or old.tokens
    cost := p.cost.or old.cost }

/-- The tool-call-index entry built from a part when
`part.type === "tool" && part.callID && part.state` (note `""` is falsy):
shared by `handleEvent`'s part branch and `getSessionState`'s initial build. -/
def toolEntryOf (p : MessagePart) : Option (String × ToolEntry) :=
  match p.type, p.callID, p.state with
  | .tool, some c, some s =>
    if c = "" then none
    else some (c, { callID := c, messageID := p.messageID, partID := p.id,
                    tool := p.tool, state := s })
  | _, _, _ => none

/-- One branch dispatch of `handleEvent` on the session's state: `some st'`
when the branch set `updated = true` (with `st'` the mutated state, before the
`lastUpdate`/sort finalisation), `none` when `updated` stayed `false`. -/
def mergeEvent (st : SessionState) : Event → Option SessionState
  | .messageUpdated info =>
    match updateFirstBy (fun m => msgId m = some info.id)
        (fun m => { m with info := some info }) st.messages with
    | some ms => some { st with messages := ms }
    | none => some { st with messages := st.messages ++ [{ info := some info, parts := [] }] }
  | .messageRemoved _ messageID =>
    match removeFirstBy (fun m => msgId m = some messageID) st.messages with
    | none => none
    | some (_, ms) =>
      -- `entry.messageID === removed.info!.id`; the find guarantees
      -- `removed.info!.id = messageID`.
      some { st with messages := ms
                     toolsByCall :=
                       st.toolsByCall.filter (fun e => ¬ e.2.messageID = messageID) }
  | .partUpdated part =>
    match updateFirstBy (fun m => msgId m = some part.messageID)
        (fun m =>
          match updateFirstBy (fun p => p.id = part.id) (assignPart · part) m.parts with
          | some ps => { m with parts := ps }
          | none => { m with parts := m.parts ++ [part] }) st.messages with
    | none => none
    | some ms =>
      some { st with messages := ms
                     toolsByCall :=
                       match toolEntryOf part with
                       | some (c, entry) => rset st.toolsByCall c entry
                       | none => st.toolsByCall }
  | .partRemoved _ messageID partID =>
    match updateFirstBy (fun m => msgId m = some messageID)
        (fun m =>
          match removeFirstBy (fun p => p.id = partID) m.parts with
          | some (_, ps) => { m with parts := ps }
          | none => m) st.messages with
    | none => none
    | some ms =>
      some { st with messages := ms
                     toolsByCall :=
                       st.toolsByCall.filter (fun e => ¬ e.2.partID = partID) }
  | .permissionUpdated perm =>
    if rget st.permissions.byId perm.id = none then
      some { st with permissions :=
        { byId := rset st.permissions.byId perm.id perm
          queue := st.permissions.queue ++ [perm.id]
          activeId := if isTruthyStr st.permissions.activeId then st.permissions.activeId
                      else some perm.id } }
    else none
  | .permissionReplied _ permissionID =>
    if (rget st.permissions.byId permissionID).isSome then
      let q := st.permissions.queue.filter (fun id => ¬ id = permissionID)
      some { st with permissions :=
        { byId := rdel st.permissions.byId permissionID
          queue := q
          activeId := if st.permissions.activeId = some permissionID then q.head?
                      else st.permissions.activeId } }
    else none
  | .sessionDeleted _ => none
  | .unknownEvent _ _ => none

/-- `extractSessionId`: checks `properties.sessionID`,
`properties.info?.sessionID`, `properties.part?.sessionID` in order, with JS
falsiness (`""` falls through to `null`). Each event shape carries its session
id at the location the upstream populates. -/
def extractSessionId : Event → Option String
  | .messageUpdated info => if info.sessionID = "" then none else some info.sessionID
  | .messageRemoved sid _ => if sid = "" then none else some sid
  | .partUpdated part => if part.sessionID = "" then none else some part.sessionID
  | .partRemoved sid _ _ => if sid = "" then none else some sid
  | .permissionUpdated perm => if perm.sessionID = "" then none else some perm.sessionID
  | .permissionReplied sid _ => if sid = "" then none else some sid
  | .sessionDeleted sid => if sid = "" then none else some sid
  | .unknownEvent _ sid =>
    match sid with
    | none => none
    | some s => if s = "" then none else some s

/-- The fresh state installed by `getOrCreateState`. -/
def emptySessionState (now : Nat) : SessionState :=
  { messages := []
    permissions := { byId := [], queue := [] }
    toolsByCall := []
    lastUpdate := now }

/-- The client's session map `state : Map<string, SessionState>`. -/
abbrev ClientMap : Type := List (String × SessionState)

/-- The `if (updated)` finalisation: `state.lastUpdate = Date.now()` and the
stable re-sort of `state.messages`. -/
def finalize (now : Nat) (st : SessionState) : SessionState :=
  { st with lastUpdate := now, messages := sortMessages st.messages }

/-- `handleEvent`: extract a session id (drop the event if none), lazily
create the session state, apply the merge branch, and on mutation finalise
and emit the `(sessionId, state)` notification handed to every listener. -/
def handleEvent (now : Nat) (cm : ClientMap) (e : Event) :
    ClientMap × Option (String × SessionState) :=
  match extractSessionId e with
  | none => (cm, none)
  | some sid =>
    let st := (rget cm sid).getD (emptySessionState now)
    let cm0 := rset cm sid st
    match mergeEvent st e with
    | none => (cm0, none)
    | some st1 =>
      let st2 := finalize now st1
      (rset cm0 sid st2, some (sid, st2))

/-- The local-state part of `respondToPermission`, reached after the upstream
POST succeeded: the "optimistically advance queue" block. Returns the emitted
notification when the permission was present. -/
def respondLocal (now : Nat) (cm : ClientMap) (sessionId permissionId : String) :
    ClientMap × Option (String × SessionState) :=
  match rget cm sessionId with
  | none => (cm, none)
  | some st =>
    if (rget st.permissions.byId permissionId).isSome then
      let q := st.permissions.queue.filter (fun id => ¬ id = permissionId)
      let perms : PermissionsState :=
        { byId := rdel st.permissions.byId permissionId
          queue := q
          activeId := if st.permissions.activeId = some permissionId then q.head?
                      else st.permissions.activeId }
      let st' := { st with permissions := perms, lastUpdate := now }
      (rset cm sessionId st', some (sessionId, st'))
    else (cm, none)

/-- `respondToPermission(sessionId, permissionId, response)`: POST the
response upstream (`fetchOk` embeds `res.ok`); throw on failure, otherwise
optimistically advance the local queue. The `response` value is only sent
upstream and never touches local state. -/
def respondToPermission (fetchOk : Bool) (now : Nat) (cm : ClientMap)
    (sessionId permissionId : String) (_response : PermissionResponse) :
    Except String (ClientMap × Option (String × SessionState)) :=
  if fetchOk then .ok (respondLocal now cm sessionId permissionId)
  else .error "Failed to respond to permission"

/-! ## Reconnect backoff (`connect` / `reconnect`) -/

/-- `Math.min(1000 * Math.pow(2, this.reconnectAttempts), 30000)`. -/
def reconnectDelay (reconnectAttempts : Nat) : Nat :=
  min (1000 * 2 ^ reconnectAttempts) 30000

/-- How one `connect()` call ends: it either never reached `res.ok`
(`failed`), or connected — executing `this.reconnectAttempts = 0` — and its
stream later ended (`connectedThenEnded`). Either way `reconnect()` runs. -/
inductive AttemptOutcome
  | failed
  | connectedThenEnded
deriving DecidableEq, Repr

/-- The `reconnectAttempts` counter as `reconnect()` reads it after the
attempt: a successful connection reset it to `0`. -/
def attemptCounter (c : Nat) : AttemptOutcome → Nat
  | .failed => c
  | .connectedThenEnded => 0

/-- Run a sequence of connect attempts from counter `c`: each attempt ends,
`reconnect()` computes the delay from the current counter, increments it, and
schedules the next attempt. Returns the scheduled delays in order and the
final counter. -/
def runAttempts : Nat → List AttemptOutcome → List Nat × Nat
  | c, [] => ([], c)
  | c, o :: os =>
    let c0 := attemptCounter c o
    let r := runAttempts (c0 + 1) os
    (reconnectDelay c0 :: r.1, r.2)

/-! ## `getSessionState` and the server's `/stream` subscribe -/

/-- The initial tool-index build in `getSessionState`: for each part of each
fetched message, upsert an entry when `p.type === "tool" && p.callID && p.state`. -/
def buildToolsByCall (messages : List Message) : List (String × ToolEntry) :=
  messages.foldl
    (fun acc m =>
      m.parts.foldl
        (fun acc p =>
          match toolEntryOf p with
          | some (c, entry) => rset acc c entry
          | none => acc)
        acc)
    []

/-- `getSessionState(sessionId)` on the success path: when no local state
exists, fetch the session's messages (`fetched` is the upstream response),
sort them chronologically, build the initial tool map and install the state;
then re-sort the stored messages and return the state. -/
def getSessionState (now : Nat) (cm : ClientMap) (sessionId : String)
    (fetched : List Message) : ClientMap × SessionState :=
  let st0 :=
    match rget cm sessionId with
    | some st => st
    | none =>
      let msgs := sortMessages fetched
      { messages := msgs
        permissions := { byId := [], queue := [] }
        toolsByCall := buildToolsByCall msgs
        lastUpdate := now }
  let st := { st0 with messages := sortMessages st0.messages }
  (rset cm sessionId st, st)

/-- A frame written to a downstream SSE connection by `src/server.ts`:
`data: {sessionId, state}` or the inert `:keepalive` comment. -/
inductive Frame
  | data (sessionId : String) (state : SessionState)
  | keepalive
deriving DecidableEq, Repr

/-- The server's connection-tracking state: the client's session map plus
`browserConnections` (per-session set of live stream controllers, named by
ids). -/
structure ServerState where
  client : ClientMap
  browserConnections : List (String × List Nat)
deriving DecidableEq, Repr

/-- The `/stream` route's `start(controller)`: register the controller under
the session, compute `getSessionState`, and enqueue the initial snapshot
frame. Returns the frames pushed to the new subscriber by this call. -/
def subscribe (srv : ServerState) (sessionId : String) (controller : Nat)
    (now : Nat) (fetched : List Message) : ServerState × List Frame :=
  let conns := (rget srv.browserConnections sessionId).getD []
  let conns1 := if controller ∈ conns then conns else conns ++ [controller]
  let bc := rset srv.browserConnections sessionId conns1
  let r := getSessionState now srv.client sessionId fetched
  ({ client := r.1, browserConnections := bc }, [Frame.data sessionId r.2])

/-! ## Buffering Gate

Modelled from the spec: `opencode-client.ts` — the module implementing
`enableBuffering` / `disableBuffering` that `src/server.ts` imports and calls
on its `/session/:sessionId/buffer/enable` and `/buffer/disable` routes — is
not among the provided sources; only its callers are. The gate below follows
§4.5 of the spec: a per-session flag; while set, Dispatcher notifications for
that session are appended in order to an in-memory list instead of being
handed to the Downstream Connection Manager; disabling clears the flag,
replays the buffer in original order exactly once, and clears it; both
operations are idempotent and the gate is a pass-through when never enabled. -/

/-- Modelled from the spec: the Buffering Gate's state (§4.5) — the set of
sessions whose flag is on, and the per-session ordered holding buffers. -/
structure GateState where
  enabled : List String
  buffers : List (String × List (String × SessionState))
deriving DecidableEq, Repr

/-- Modelled from the spec: the gate before any operation — no flags, no
buffered notifications (pass-through). -/
def initialGate : GateState := { enabled := [], buffers := [] }

/-- Modelled from the spec: `enableBuffering(sessionId)` sets the per-session
flag; enabling twice is a no-op after the first. -/
def enableBuffering (g : GateState) (sessionId : String) : GateState :=
  if sessionId ∈ g.enabled then g else { g with enabled := g.enabled ++ [sessionId] }

/-- Modelled from the spec: a Dispatcher notification entering the gate is
appended to the session's buffer while the flag is set, and otherwise handed
straight to the Downstream Connection Manager (the returned list). -/
def gateNotify (g : GateState) (n : String × SessionState) :
    GateState × List (String × SessionState) :=
  if n.1 ∈ g.enabled then
    ({ g with buffers := rset g.buffers n.1 ((rget g.buffers n.1).getD [] ++ [n]) }, [])
  else (g, [n])

/-- Modelled from the spec: `disableBuffering(sessionId)` clears the flag,
replays the buffered notifications in original order to the Downstream
Connection Manager (the returned list) exactly once, then clears the buffer;
disabling with an empty buffer is a no-op. -/
def disableBuffering (g : GateState) (sessionId : String) :
    GateState × List (String × SessionState) :=
  ({ enabled := g.enabled.filter (fun s => ¬ s = sessionId)
     buffers := rdel g.buffers sessionId },
   (rget g.buffers sessionId).getD [])

/-- Feed a sequence of Dispatcher notifications through the gate,
concatenating everything delivered downstream, in order. -/
def gateRun (g : GateState) : List (String × SessionState) →
    GateState × List (String × SessionState)
  | [] => (g, [])
  | n :: ns =>
    let r1 := gateNotify g n
    let r2 := gateRun r1.1 ns
    (r2.1, r1.2 ++ r2.2)

/-! ## Client operation sequences (for reachability statements) -/

/-- One mutation entering the client: a decoded upstream event handed to
`handleEvent`, or a (successful) `respondToPermission` call. -/
inductive ClientOp
  | ev (now : Nat) (e : Event)
  | respond (now : Nat) (sessionId permissionId : String) (response : PermissionResponse)
deriving DecidableEq, Repr

/-- Apply one operation to the session map. -/
def applyOp (cm : ClientMap) : ClientOp → ClientMap
  | .ev now e => (handleEvent now cm e).1
  | .respond now sid pid _ => (respondLocal now cm sid pid).1

/-- Run a sequence of operations from a session map. -/
def runOps (cm : ClientMap) (ops : List ClientOp) : ClientMap :=
  ops.foldl applyOp cm

/-- The ids of the permissions announced for `sessionId` by a sequence of
operations, in arrival order. -/
def announcedIds (sessionId : String) (ops : List ClientOp) : List String :=
  ops.filterMap fun op =>
    match op with
    | .ev _ (.permissionUpdated p) =>
      if p.sessionID = sessionId then some p.id else none
    | _ => none

/-- `applyEvent`: the per-session effect of `handleEvent` — the merge branch
followed, on mutation, by the `lastUpdate`/re-sort finalisation. -/
def applyEvent (now : Nat) (st : SessionState) (e : Event) : SessionState :=
  match mergeEvent st e with
  | some st1 => finalize now st1
  | none => st

/-! ## Concrete example values (used by scenario theorems and witnesses) -/

def exPerm1 : Permission :=
  { id := "p1", type := "bash", sessionID := "s1", title := "Run ls" }

def exPerm2 : Permission :=
  { id := "p2", type := "edit", sessionID := "s1", title := "Edit file" }

def exPermEmptyId : Permission :=
  { id := "", type := "bash", sessionID := "s1", title := "Run pwd" }

def exInfo1 : MessageInfo :=
  { id := "m1", role := .user, sessionID := "s1", timeCreated := some 10 }

def exInfo2 : MessageInfo :=
  { id := "m2", role := .assistant, sessionID := "s1", timeCreated := some 20 }

def exToolState : ToolPartState := { status := .running }

def exToolPart : MessagePart :=
  { id := "prt1", messageID := "m1", sessionID := "s1", type := .tool,
    tool := some "bash", callID := some "c1", state := some exToolState }

def exMessage1 : Message := { info := some exInfo1, parts := [] }

def exMessage2 : Message := { info := some exInfo2, parts := [] }

/-- A session state holding one pending permission `p1`. -/
def exStatePerm : SessionState :=
  { messages := []
    permissions := { byId := [("p1", exPerm1)], queue := ["p1"], activeId := some "p1" }
    toolsByCall := []
    lastUpdate := 0 }

/-- A client map with session `s1` in state `exStatePerm`. -/
def exClientMap : ClientMap := [("s1", exStatePerm)]

/-- A session state holding one message `m1` and nothing else. -/
def exStateMsg : SessionState :=
  { messages := [exMessage1]
    permissions := { byId := [], queue := [] }
    toolsByCall := []
    lastUpdate := 0 }

/-- A part whose owning message `m9` exists in no session state above. -/
def exPartUnknown : MessagePart :=
  { id := "px", messageID := "m9", sessionID := "s1", type := .text,
    text := some "orphan" }

/-- The state of `s1` after announcing `p1` into a fresh store at time 1. -/
def exAnnounced1State : SessionState :=
  { messages := []
    permissions := { byId := [("p1", exPerm1)], queue := ["p1"], activeId := some "p1" }
    toolsByCall := []
    lastUpdate := 1 }

/-! ## The permission-queue invariant -/

/-- The spec's permission queue invariant: `activeId` is `queue[0]` when the
queue is non-empty and unset when it is empty — i.e. `activeId = queue.head?`
— together with the side condition (forced by the counterexample below) that
every queued id is non-empty, since the code tests `activeId` by JS
truthiness, for which `""` is falsy. -/
def permWellFormed (ps : PermissionsState) : Prop :=
  ps.activeId = ps.queue.head? ∧ ∀ i ∈ ps.queue, ¬ i = ""

/-- An event announces no JS-falsy (empty-string) permission id. -/
def eventPermIdOk : Event → Bool
  | .permissionUpdated p => ¬ p.id = ""
  | _ => true

/-- A client operation announces no JS-falsy permission id. -/
def opPermIdOk : ClientOp → Bool
  | .ev _ e => eventPermIdOk e
  | .respond _ _ _ _ => true

/-! # Lemmas about the association-list embedding of JS objects -/

theorem rget_nil {α : Type} (k : String) : rget ([] : List (String × α)) k = none := rfl

theorem rget_cons {α : Type} (x : String × α) (l : List (String × α)) (k : String) :
    rget (x :: l) k = if x.1 = k then some x.2 else rget l k := by
  by_cases h : x.1 = k
  · rw [if_pos h]
    unfold rget
    rw [List.find?_cons_of_pos _ (by simpa using h)]
    rfl
  · rw [if_neg h]
    unfold rget
    rw [List.find?_cons_of_neg _ (by simpa using h)]

theorem rget_append_single_ne {α : Type} (r : List (String × α)) (k k' : String) (v : α)
    (h : ¬ k' = k) : rget (r ++ [(k, v)]) k' = rget r k' := by
  induction r with
  | nil =>
    rw [List.nil_append, rget_cons, if_neg (show ¬ k = k' from fun hk => h hk.symm)]
  | cons x r ih =>
    rw [List.cons_append, rget_cons, rget_cons]
    by_cases hx : x.1 = k'
    · rw [if_pos hx, if_pos hx]
    · rw [if_neg hx, if_neg hx]
      exact ih

theorem rget_append_of_none {α : Type} (l₁ l₂ : List (String × α)) (k : String)
    (h : rget l₁ k = none) : rget (l₁ ++ l₂) k = rget l₂ k := by
  induction l₁ with
  | nil => rfl
  | cons x l₁ ih =>
    rw [rget_cons] at h
    by_cases hx : x.1 = k
    · simp [hx] at h
    · rw [if_neg hx] at h
      rw [List.cons_append, rget_cons, if_neg hx]
      exact ih h

theorem rget_eq_none_of_any_eq_false {α : Type} (r : List (String × α)) (k : String)
    (h : r.any (fun p => p.1 = k) = false) : rget r k = none := by
  induction r with
  | nil => rfl
  | cons x r ih =>
    simp only [List.any_cons, Bool.or_eq_false_iff] at h
    rw [rget_cons, if_neg (by simpa using h.1)]
    exact ih h.2

theorem rget_map_set_self {α : Type} (r : List (String × α)) (k : String) (v : α)
    (h : r.any (fun p => p.1 = k) = true) :
    rget (r.map (fun p => if p.1 = k then (k, v) else p)) k = some v := by
  induction r with
  | nil => simp at h
  | cons p r ih =>
    by_cases hp : p.1 = k
    · rw [List.map_cons, if_pos hp, rget_cons, if_pos rfl]
    · simp only [List.any_cons, Bool.or_eq_true, decide_eq_true_eq] at h
      rw [List.map_cons, if_neg hp, rget_cons, if_neg hp]
      exact ih (by simpa using h.resolve_left hp)

theorem rget_map_set_ne {α : Type} (r : List (String × α)) (k k' : String) (v : α)
    (h : ¬ k' = k) :
    rget (r.map (fun p => if p.1 = k then (k, v) else p)) k' = rget r k' := by
  induction r with
  | nil => rfl
  | cons p r ih =>
    by_cases hp : p.1 = k
    · have hpk' : ¬ p.1 = k' := by rw [hp]; exact fun hk => h hk.symm
      rw [List.map_cons, if_pos hp, rget_cons,
        if_neg (show ¬ ((k, v) : String × α).1 = k' from fun hk => h hk.symm),
        rget_cons, if_neg hpk']
      exact ih
    · rw [List.map_cons, if_neg hp, rget_cons, rget_cons]
      by_cases hp' : p.1 = k'
      · rw [if_pos hp', if_pos hp']
      · rw [if_neg hp', if_neg hp']
        exact ih

theorem rget_rset_self {α : Type} (r : List (String × α)) (k : String) (v : α) :
    rget (rset r k v) k = some v := by
  unfold rset
  split
  next h => exact rget_map_set_self r k v h
  next h =>
    rw [rget_append_of_none _ _ _
      (rget_eq_none_of_any_eq_false r k (Bool.eq_false_iff.mpr h))]
    rw [rget_cons, if_pos rfl]

theorem rget_rset_ne {α : Type} (r : List (String × α)) (k k' : String) (v : α)
    (h : ¬ k' = k) : rget (rset r k v) k' = rget r k' := by
  unfold rset
  split
  · exact rget_map_set_ne r k k' v h
  · exact rget_append_single_ne r k k' v h

theorem rget_rdel_self {α : Type} (r : List (String × α)) (k : String) :
    rget (rdel r k) k = none := by
  induction r with
  | nil => rfl
  | cons x r ih =>
    unfold rdel
    by_cases hx : x.1 = k
    · rw [List.filter_cons_of_neg (by simpa using hx)]
      exact ih
    · rw [List.filter_cons_of_pos (by simpa using hx), rget_cons, if_neg hx]
      exact ih

theorem rget_rdel_ne {α : Type} (r : List (String × α)) (k k' : String)
    (h : ¬ k' = k) : rget (rdel r k) k' = rget r k' := by
  induction r with
  | nil => rfl
  | cons x r ih =>
    unfold rdel
    by_cases hx : x.1 = k
    · have hxk' : ¬ x.1 = k' := by rw [hx]; exact fun hk => h hk.symm
      rw [List.filter_cons_of_neg (by simpa using hx), rget_cons, if_neg hxk']
      exact ih
    · rw [List.filter_cons_of_pos (by simpa using hx), rget_cons, rget_cons]
      by_cases hx' : x.1 = k'
      · rw [if_pos hx', if_pos hx']
      · rw [if_neg hx', if_neg hx']
        exact ih

theorem rset_rset {α : Type} (r : List (String × α)) (k : String) (v w : α) :
    rset (rset r k v) k w = rset r k w := by
  unfold rset
  by_cases h : r.any (fun p => p.1 = k) = true
  · have hmap : (r.map (fun p => if p.1 = k then (k, v) else p)).any
        (fun p => p.1 = k) = true := by
      simp only [List.any_map, List.any_eq_true] at h ⊢
      obtain ⟨x, hx, hxk⟩ := h
      exact ⟨x, hx, by simp_all⟩
    simp only [h, if_true, hmap, List.map_map]
    congr 1
    funext p
    by_cases hp : p.1 = k <;> simp [hp, Function.comp]
  · have h' : r.any (fun p => p.1 = k) = false := Bool.eq_false_iff.mpr h
    have hall : ∀ p ∈ r, ¬ p.1 = k := by
      intro p hp hk
      rw [Bool.eq_false_iff] at h'
      exact h' (List.any_eq_true.mpr ⟨p, hp, by simpa using hk⟩)
    have happ : (r ++ [(k, v)]).any (fun p => p.1 = k) = true := by simp
    simp only [h', if_false, Bool.false_eq_true, happ, if_true, List.map_append]
    have hmapr : r.map (fun p => if p.1 = k then (k, w) else p) = r := by
      calc r.map (fun p => if p.1 = k then (k, w) else p)
          = r.map id := List.map_congr_left (fun p hp => by simp [hall p hp])
        _ = r := List.map_id r
    simp [hmapr]

/-! # Buffering Gate lemmas and claim C1 -/

theorem gateRun_cons (g : GateState) (n : String × SessionState)
    (ns : List (String × SessionState)) :
    gateRun g (n :: ns)
      = ((gateRun (gateNotify g n).1 ns).1,
         (gateNotify g n).2 ++ (gateRun (gateNotify g n).1 ns).2) := rfl

theorem gateRun_buffered (sid : String) (sts : List SessionState) :
    ∀ g : GateState, sid ∈ g.enabled →
      (gateRun g (sts.map (fun st => (sid, st)))).2 = []
      ∧ (gateRun g (sts.map (fun st => (sid, st)))).1.enabled = g.enabled
      ∧ (rget (gateRun g (sts.map (fun st => (sid, st)))).1.buffers sid).getD []
          = (rget g.buffers sid).getD [] ++ sts.map (fun st => (sid, st)) := by
  induction sts with
  | nil => intro g _; simp [gateRun]
  | cons st sts ih =>
    intro g hin
    have hgn1 : (gateNotify g (sid, st)).1 = { g with buffers := rset g.buffers sid ((rget g.buffers sid).getD [] ++ [(sid, st)]) } := by
      unfold gateNotify
      rw [if_pos (show ((sid, st) : String × SessionState).1 ∈ g.enabled from hin)]
    have hgn2 : (gateNotify g (sid, st)).2 = [] := by
      unfold gateNotify
      rw [if_pos (show ((sid, st) : String × SessionState).1 ∈ g.enabled from hin)]
    have hin1 : sid ∈ (gateNotify g (sid, st)).1.enabled := by rw [hgn1]; exact hin
    obtain ⟨h1, h2, h3⟩ := ih (gateNotify g (sid, st)).1 hin1
    refine ⟨?_, ?_, ?_⟩
    · rw [List.map_cons, gateRun_cons]
      dsimp only
      rw [hgn2, List.nil_append]
      exact h1
    · rw [List.map_cons, gateRun_cons]
      dsimp only
      rw [h2, hgn1]
    · rw [List.map_cons, gateRun_cons]
      dsimp only
      rw [h3, hgn1]
      dsimp only
      rw [rget_rset_self]
      simp

/-- C1: after `enableBuffering(S)`, `N` merge notifications for `S`, then
`disableBuffering(S)`, nothing is delivered downstream while buffering is on,
the flush replays exactly the `N` notifications once and in original order,
and afterwards the buffer is empty and the flag clear (so nothing can be
replayed twice) — a subscriber connected throughout observes exactly `N`
frames for `S`, in order, with no duplicates and no drops. -/
theorem buffering_replay (g0 : GateState) (sid : String) (sts : List SessionState)
    (hbuf : (rget g0.buffers sid).getD [] = []) :
    (gateRun (enableBuffering g0 sid) (sts.map (fun st => (sid, st)))).2 = []
    ∧ (disableBuffering
        (gateRun (enableBuffering g0 sid) (sts.map (fun st => (sid, st)))).1 sid).2
        = sts.map (fun st => (sid, st))
    ∧ (rget (disableBuffering
        (gateRun (enableBuffering g0 sid) (sts.map (fun st => (sid, st)))).1 sid).1.buffers
          sid).getD [] = []
    ∧ sid ∉ (disableBuffering
        (gateRun (enableBuffering g0 sid) (sts.map (fun st => (sid, st)))).1 sid).1.enabled := by
  have hin : sid ∈ (enableBuffering g0 sid).enabled := by
    unfold enableBuffering
    split
    · assumption
    · simp
  have hbufe : (rget (enableBuffering g0 sid).buffers sid).getD [] = [] := by
    unfold enableBuffering
    split <;> simpa using hbuf
  obtain ⟨h1, _h2, h3⟩ := gateRun_buffered sid sts (enableBuffering g0 sid) hin
  rw [hbufe] at h3
  refine ⟨h1, ?_, ?_, ?_⟩
  · simpa [disableBuffering] using h3
  · simp [disableBuffering, rget_rdel_self]
  · simp [disableBuffering, List.mem_filter]

/-- Witness for C1 at a concrete gate and two notifications. -/
theorem buffering_replay_witness :
    (rget initialGate.buffers "s1").getD [] = []
    ∧ (disableBuffering
        (gateRun (enableBuffering initialGate "s1")
          ([exStatePerm, exStateMsg].map (fun st => ("s1", st)))).1 "s1").2
        = [("s1", exStatePerm), ("s1", exStateMsg)] := by
  refine ⟨by decide, ?_⟩
  exact (buffering_replay initialGate "s1" [exStatePerm, exStateMsg] (by decide)).2.1

/-! # Claims C2 and C3: `respondToPermission` -/

/-- C3: responding for a permission id absent from the session's `byId` is a
harmless no-op — the session map (hence queue length and `activeId`) is
unchanged, no notification is emitted, and the call returns `.ok` rather than
raising. -/
theorem respondToPermission_absent_noop (now : Nat) (cm : ClientMap)
    (sid pid : String) (r : PermissionResponse) (st : SessionState)
    (hst : rget cm sid = some st)
    (habs : rget st.permissions.byId pid = none) :
    respondToPermission true now cm sid pid r = .ok (cm, none) := by
  simp [respondToPermission, respondLocal, hst, habs]

/-- Witness for C3: responding for the unknown id `p9`. -/
theorem respondToPermission_absent_noop_witness :
    rget exClientMap "s1" = some exStatePerm
    ∧ rget exStatePerm.permissions.byId "p9" = none
    ∧ respondToPermission true 7 exClientMap "s1" "p9" PermissionResponse.once
        = .ok (exClientMap, none) :=
  ⟨by decide, by decide,
    respondToPermission_absent_noop 7 exClientMap "s1" "p9" PermissionResponse.once
      exStatePerm (by decide) (by decide)⟩

/-- C2 counterexample: in a state where permission `p1` is present (`byId`,
`queue` and `activeId` all hold it), a successful
`respondToPermission("s1", "p1", once)` *does* itself remove `p1` from the
local permission state — `byId` loses it, the queue becomes empty and
`activeId` is cleared — refuting the claim that local state keeps `p1` until
a permission-replied event arrives. -/
theorem respondToPermission_removes_cex :
    (rget exStatePerm.permissions.byId "p1").isSome = true
    ∧ exStatePerm.permissions.queue = ["p1"]
    ∧ exStatePerm.permissions.activeId = some "p1"
    ∧ (respondToPermission true 7 exClientMap "s1" "p1" PermissionResponse.once).toOption
        = some (respondLocal 7 exClientMap "s1" "p1")
    ∧ (rget (respondLocal 7 exClientMap "s1" "p1").1 "s1").map
        (fun st => (rget st.permissions.byId "p1", st.permissions.queue,
                    st.permissions.activeId))
        = some (none, [], none) := by
  decide

/-- C2 (amended): when the upstream POST succeeds and the permission is
present locally, `respondToPermission` optimistically removes it at once:
`byId` loses the id, the queue is filtered, `activeId` is moved off the id,
`lastUpdate` is bumped and listeners are notified; messages and the tool
index are untouched. -/
theorem respondToPermission_optimistic_removal (now : Nat) (cm : ClientMap)
    (sid pid : String) (r : PermissionResponse) (st : SessionState)
    (hst : rget cm sid = some st)
    (hp : (rget st.permissions.byId pid).isSome = true) :
    ∃ st', respondToPermission true now cm sid pid r
        = .ok (rset cm sid st', some (sid, st'))
      ∧ rget st'.permissions.byId pid = none
      ∧ pid ∉ st'.permissions.queue
      ∧ ¬ st'.permissions.activeId = some pid
      ∧ st'.messages = st.messages
      ∧ st'.toolsByCall = st.toolsByCall
      ∧ st'.lastUpdate = now := by
  refine ⟨{ st with
      permissions :=
        { byId := rdel st.permissions.byId pid
          queue := st.permissions.queue.filter (fun id => ¬ id = pid)
          activeId := if st.permissions.activeId = some pid then
                        (st.permissions.queue.filter (fun id => ¬ id = pid)).head?
                      else st.permissions.activeId }
      lastUpdate := now }, ?_, ?_, ?_, ?_, rfl, rfl, rfl⟩
  · simp [respondToPermission, respondLocal, hst, hp]
  · exact rget_rdel_self st.permissions.byId pid
  · intro hmem
    have := (List.mem_filter.mp hmem).2
    simp at this
  · by_cases hact : st.permissions.activeId = some pid
    · rw [if_pos hact]
      intro hh
      have hpq : pid ∈ st.permissions.queue.filter (fun id => ¬ id = pid) := by
        cases hq3 : st.permissions.queue.filter (fun id => ¬ id = pid) with
        | nil => rw [hq3] at hh; simp at hh
        | cons a l =>
          rw [hq3] at hh
          simp only [List.head?_cons, Option.some.injEq] at hh
          rw [hh]
          exact List.mem_cons_self pid l
      have := (List.mem_filter.mp hpq).2
      simp at this
    · rw [if_neg hact]
      exact hact

/-- Witness for the amended C2 at the concrete state holding `p1`. -/
theorem respondToPermission_optimistic_removal_witness :
    ∃ st', respondToPermission true 7 exClientMap "s1" "p1" PermissionResponse.once
        = .ok (rset exClientMap "s1" st', some ("s1", st'))
      ∧ rget st'.permissions.byId "p1" = none
      ∧ "p1" ∉ st'.permissions.queue
      ∧ ¬ st'.permissions.activeId = some "p1"
      ∧ st'.messages = exStatePerm.messages
      ∧ st'.toolsByCall = exStatePerm.toolsByCall
      ∧ st'.lastUpdate = 7 :=
  respondToPermission_optimistic_removal 7 exClientMap "s1" "p1"
    PermissionResponse.once exStatePerm (by decide) (by decide)

/-! # Claim C5: permission lifecycle scenario -/

/-- C5: from an empty store, merging `permission.updated{p1}`, a duplicate
`permission.updated{p1}`, then `permission.replied{p1}` leaves session `s1`
with no `byId` entry for `p1`, an empty queue and an unset `activeId`; and
after the two announcements the duplicate has created no second queue entry
(`queue = ["p1"]`). -/
theorem permission_lifecycle_scenario :
    ((rget (runOps [] [ClientOp.ev 1 (Event.permissionUpdated exPerm1),
                       ClientOp.ev 2 (Event.permissionUpdated exPerm1),
                       ClientOp.ev 3 (Event.permissionReplied "s1" "p1")]) "s1").map
        (fun st => (rget st.permissions.byId "p1", st.permissions.queue,
                    st.permissions.activeId)) = some (none, [], none))
    ∧ ((rget (runOps [] [ClientOp.ev 1 (Event.permissionUpdated exPerm1),
                         ClientOp.ev 2 (Event.permissionUpdated exPerm1)]) "s1").map
        (fun st => (st.permissions.queue, st.permissions.activeId))
        = some (["p1"], some "p1")) := by
  decide

/-! # Claim C4: reconnect backoff -/

theorem runAttempts_replicate_failed (k : Nat) :
    ∀ c, runAttempts c (List.replicate k .failed)
      = ((List.range k).map (fun j => reconnectDelay (c + j)), c + k) := by
  induction k with
  | zero => intro c; simp [runAttempts]
  | succ k ih =>
    intro c
    rw [List.replicate_succ]
    show (reconnectDelay c :: (runAttempts (c + 1) (List.replicate k .failed)).1,
          (runAttempts (c + 1) (List.replicate k .failed)).2)
      = _
    rw [ih (c + 1)]
    refine Prod.ext ?_ (by omega)
    show reconnectDelay c :: (List.range k).map (fun j => reconnectDelay (c + 1 + j))
      = (List.range (k + 1)).map (fun j => reconnectDelay (c + j))
    rw [List.range_succ_eq_map, List.map_cons, List.map_map]
    simp only [Nat.add_zero]
    congr 1
    apply List.map_congr_left
    intro j _
    simp only [Function.comp_apply]
    congr 1
    omega

/-- C4: after the last successful connection (which resets
`reconnectAttempts` to 0), the delays scheduled by `reconnect()` across a run
of `k` consecutive failures are exactly `min(1000·2^j, 30000)` for
`j = 0, …, k`: the delay scheduled before attempt `k+1` is
`min(1000·2^k, 30000)`, and the first delay of the sequence is back at the
1000 ms base, whatever the counter `c` had reached before the success. -/
theorem reconnect_backoff (c k : Nat) :
    (runAttempts c (AttemptOutcome.connectedThenEnded :: List.replicate k .failed)).1
      = (List.range (k + 1)).map reconnectDelay
    ∧ ((runAttempts c (AttemptOutcome.connectedThenEnded :: List.replicate k .failed)).1).getLast?
      = some (min (1000 * 2 ^ k) 30000)
    ∧ ((runAttempts c (AttemptOutcome.connectedThenEnded :: List.replicate k .failed)).1).head?
      = some 1000
    ∧ ∀ j, reconnectDelay j = min (1000 * 2 ^ j) 30000 := by
  have hfirst : (runAttempts c (AttemptOutcome.connectedThenEnded :: List.replicate k .failed)).1
      = (List.range (k + 1)).map reconnectDelay := by
    show reconnectDelay (attemptCounter c .connectedThenEnded)
        :: (runAttempts (attemptCounter c .connectedThenEnded + 1) (List.replicate k .failed)).1
      = _
    rw [show attemptCounter c .connectedThenEnded = 0 from rfl,
      runAttempts_replicate_failed k 1]
    rw [List.range_succ_eq_map, List.map_cons, List.map_map]
    congr 1
    apply List.map_congr_left
    intro j _
    simp only [Function.comp]
    congr 1
    omega
  refine ⟨hfirst, ?_, ?_, fun _ => rfl⟩
  · rw [hfirst, List.range_succ, List.map_append]
    simp only [List.map_cons, List.map_nil]
    rw [List.getLast?_concat]
    rfl
  · rw [hfirst, List.range_succ_eq_map, List.map_cons]
    simp only [List.head?_cons]
    decide

/-! # Claim C9: snapshot on subscribe -/

theorem sortMessages_sorted (ms : List Message) : (sortMessages ms).Sorted msgLE :=
  List.sorted_insertionSort msgLE ms

theorem sortMessages_idem (ms : List Message) :
    sortMessages (sortMessages ms) = sortMessages ms :=
  List.Sorted.insertionSort_eq (sortMessages_sorted ms)

/-- C9: `/stream`'s `start` pushes, as the only frame of the subscribe step,
one full `{sessionId, state}` snapshot — before any mutation frame can reach
the new handle — and that snapshot is exactly the session's stored full state;
when no local state existed (zero mutations since creation), the snapshot is
still complete: the fetched history sorted chronologically, empty permission
queue, freshly built tool index. -/
theorem subscribe_first_frame (srv : ServerState) (sessionId : String)
    (controller : Nat) (now : Nat) (fetched : List Message) :
    (subscribe srv sessionId controller now fetched).2
      = [Frame.data sessionId (getSessionState now srv.client sessionId fetched).2]
    ∧ rget (subscribe srv sessionId controller now fetched).1.client sessionId
      = some (getSessionState now srv.client sessionId fetched).2
    ∧ (rget srv.client sessionId = none →
        (getSessionState now srv.client sessionId fetched).2.messages = sortMessages fetched
        ∧ (getSessionState now srv.client sessionId fetched).2.permissions
            = { byId := [], queue := [], activeId := none }
        ∧ (getSessionState now srv.client sessionId fetched).2.toolsByCall
            = buildToolsByCall (sortMessages fetched)
        ∧ (getSessionState now srv.client sessionId fetched).2.lastUpdate = now) := by
  refine ⟨rfl, ?_, ?_⟩
  · show rget (getSessionState now srv.client sessionId fetched).1 sessionId = _
    unfold getSessionState
    exact rget_rset_self _ _ _
  · intro h
    unfold getSessionState
    rw [h]
    exact ⟨sortMessages_idem fetched, rfl, rfl, rfl⟩

/-- Witness for C9: a fresh server with no local state for `s1`. -/
theorem subscribe_first_frame_witness :
    rget (({ client := [], browserConnections := [] } : ServerState)).client "s1" = none
    ∧ (subscribe { client := [], browserConnections := [] } "s1" 0 5 [exMessage1]).2
        = [Frame.data "s1" (getSessionState 5 [] "s1" [exMessage1]).2]
    ∧ (getSessionState 5 [] "s1" [exMessage1]).2.messages = sortMessages [exMessage1] := by
  refine ⟨rfl,
    (subscribe_first_frame { client := [], browserConnections := [] } "s1" 0 5 [exMessage1]).1,
    ?_⟩
  exact ((subscribe_first_frame { client := [], browserConnections := [] } "s1" 0 5
    [exMessage1]).2.2 rfl).1

/-! # Claim C10: part upsert for an unknown message is a no-op -/

theorem updateFirstBy_eq_none {α : Type} (p : α → Bool) (f : α → α) :
    ∀ l : List α, (∀ x ∈ l, ¬ p x = true) → updateFirstBy p f l = none := by
  intro l
  induction l with
  | nil => intro _; rfl
  | cons x xs ih =>
    intro h
    unfold updateFirstBy
    rw [if_neg (h x (List.mem_cons_self x xs))]
    rw [ih (fun y hy => h y (List.mem_cons_of_mem x hy))]
    rfl

theorem any_of_rget_isSome {α : Type} (r : List (String × α)) (k : String) :
    (rget r k).isSome = true → r.any (fun p => p.1 = k) = true := by
  induction r with
  | nil => intro h; simp [rget] at h
  | cons x r ih =>
    intro h
    rw [rget_cons] at h
    by_cases hx : x.1 = k
    · simp [hx]
    · rw [if_neg hx] at h
      simp only [List.any_cons, Bool.or_eq_true]
      exact Or.inr (ih h)

theorem rset_eq_self_of_rget {α : Type} (r : List (String × α)) (k : String) (v : α)
    (hnodup : (r.map Prod.fst).Nodup) (h : rget r k = some v) : rset r k v = r := by
  induction r with
  | nil => simp [rget] at h
  | cons x r ih =>
    rw [List.map_cons, List.nodup_cons] at hnodup
    rw [rget_cons] at h
    by_cases hx : x.1 = k
    · rw [if_pos hx] at h
      have hxv : x = (k, v) := by
        obtain ⟨x1, x2⟩ := x
        simp only at hx
        simp only [Option.some.injEq] at h
        rw [hx, h]
      have hall : ∀ q ∈ r, ¬ q.1 = k := by
        intro q hq hqk
        apply hnodup.1
        rw [hx, ← hqk]
        exact List.mem_map_of_mem Prod.fst hq
      unfold rset
      rw [if_pos (by simp [hx] : ((x :: r).any (fun p => p.1 = k)) = true)]
      rw [List.map_cons, if_pos hx]
      have hmapr : r.map (fun p => if p.1 = k then (k, v) else p) = r :=
        (List.map_congr_left (fun q hq => by simp [hall q hq])).trans (List.map_id r)
      rw [hmapr, ← hxv]
    · rw [if_neg hx] at h
      have hany : r.any (fun p => p.1 = k) = true :=
        any_of_rget_isSome r k (by rw [h]; rfl)
      have hih := ih hnodup.2 h
      unfold rset at hih ⊢
      rw [if_pos (by simp [hany] : ((x :: r).any (fun p => p.1 = k)) = true)]
      rw [if_pos hany] at hih
      rw [List.map_cons, if_neg hx, hih]

/-- `handleEvent` when no session id is extractable: the event is dropped. -/
theorem handleEvent_none_sid (now : Nat) (cm : ClientMap) (e : Event)
    (hext : extractSessionId e = none) : handleEvent now cm e = (cm, none) := by
  unfold handleEvent
  rw [hext]

/-- `handleEvent` when a session id is extracted: get-or-create, merge,
finalise on mutation. -/
theorem handleEvent_some_sid (now : Nat) (cm : ClientMap) (e : Event) (sid : String)
    (hext : extractSessionId e = some sid) :
    handleEvent now cm e
      = (match mergeEvent ((rget cm sid).getD (emptySessionState now)) e with
         | none => (rset cm sid ((rget cm sid).getD (emptySessionState now)), none)
         | some st1 =>
           (rset (rset cm sid ((rget cm sid).getD (emptySessionState now))) sid
              (finalize now st1),
            some (sid, finalize now st1))) := by
  unfold handleEvent
  rw [hext]

/-- C10: merging a part-upserted event whose owning message id is not in the
session's message list leaves the client's state entirely unchanged — no part
is added, the tool index is untouched, `lastUpdate` is not bumped, and no
listener is notified. -/
theorem part_upsert_unknown_message_noop (now : Nat) (cm : ClientMap)
    (p : MessagePart) (st : SessionState)
    (hnodup : (cm.map Prod.fst).Nodup)
    (hst : rget cm p.sessionID = some st)
    (hmsg : ∀ m ∈ st.messages, ¬ msgId m = some p.messageID) :
    handleEvent now cm (Event.partUpdated p) = (cm, none) := by
  have hmerge : mergeEvent st (Event.partUpdated p) = none := by
    simp only [mergeEvent]
    rw [updateFirstBy_eq_none _ _ st.messages (fun m hm => by simpa using hmsg m hm)]
  by_cases hsid : p.sessionID = ""
  · exact handleEvent_none_sid now cm _ (by simp [extractSessionId, hsid])
  · rw [handleEvent_some_sid now cm _ p.sessionID (by simp [extractSessionId, hsid])]
    simp only [hst, Option.getD_some, hmerge]
    rw [rset_eq_self_of_rget cm p.sessionID st hnodup hst]

/-- Witness for C10: a part owned by the unknown message `m9`. -/
theorem part_upsert_unknown_message_noop_witness :
    handleEvent 9 [("s1", exStateMsg)] (Event.partUpdated exPartUnknown)
      = ([("s1", exStateMsg)], none) :=
  part_upsert_unknown_message_noop 9 [("s1", exStateMsg)] exPartUnknown exStateMsg
    (by decide) (by decide) (by decide)

/-! # Claim C6: the permission-queue invariant -/

theorem permWF_empty (now : Nat) : permWellFormed (emptySessionState now).permissions :=
  ⟨rfl, fun i hi => absurd hi (List.not_mem_nil i)⟩

theorem permWF_announce (ps : PermissionsState) (perm : Permission)
    (hwf : permWellFormed ps) (hid : ¬ perm.id = "") :
    permWellFormed
      { byId := rset ps.byId perm.id perm
        queue := ps.queue ++ [perm.id]
        activeId := if isTruthyStr ps.activeId then ps.activeId else some perm.id } := by
  obtain ⟨hact, hids⟩ := hwf
  refine ⟨?_, ?_⟩
  · show (if isTruthyStr ps.activeId then ps.activeId else some perm.id)
      = (ps.queue ++ [perm.id]).head?
    cases hq : ps.queue with
    | nil =>
      have hnone : ps.activeId = none := by rw [hact, hq]; rfl
      rw [hnone]
      simp [isTruthyStr]
    | cons q t =>
      have hsome : ps.activeId = some q := by rw [hact, hq]; rfl
      have hqne : ¬ q = "" := hids q (by rw [hq]; exact List.mem_cons_self q t)
      rw [hsome]
      simp [isTruthyStr, hqne]
  · intro i hi
    rcases List.mem_append.mp hi with hi | hi
    · exact hids i hi
    · rw [List.mem_singleton.mp hi]
      exact hid

theorem permWF_remove (ps : PermissionsState) (pid : String)
    (hwf : permWellFormed ps) :
    permWellFormed
      { byId := rdel ps.byId pid
        queue := ps.queue.filter (fun id => ¬ id = pid)
        activeId := if ps.activeId = some pid
                    then (ps.queue.filter (fun id => ¬ id = pid)).head?
                    else ps.activeId } := by
  obtain ⟨hact, hids⟩ := hwf
  refine ⟨?_, ?_⟩
  · show (if ps.activeId = some pid
        then (ps.queue.filter (fun id => ¬ id = pid)).head? else ps.activeId)
      = (ps.queue.filter (fun id => ¬ id = pid)).head?
    by_cases hp : ps.activeId = some pid
    · rw [if_pos hp]
    · rw [if_neg hp]
      cases hq : ps.queue with
      | nil =>
        have hnone : ps.activeId = none := by rw [hact, hq]; rfl
        rw [hnone]
        rfl
      | cons q t =>
        have hsome : ps.activeId = some q := by rw [hact, hq]; rfl
        have hqpid : ¬ q = pid := fun hqp => hp (by rw [hsome, hqp])
        rw [hsome, List.filter_cons_of_pos (by simpa using hqpid)]
        rfl
  · intro i hi
    exact hids i (List.mem_of_mem_filter hi)

/-- How one merge changes the permission state: well-formedness is preserved
(given no falsy announced id), and the queue is unchanged, extended by the
announced id, or a subsequence of the old queue. -/
theorem mergeEvent_perm (st : SessionState) (e : Event) (st1 : SessionState)
    (h : mergeEvent st e = some st1) (hwf : permWellFormed st.permissions)
    (hid : eventPermIdOk e = true) :
    permWellFormed st1.permissions
    ∧ (st1.permissions.queue = st.permissions.queue
       ∨ (∃ perm, e = Event.permissionUpdated perm
            ∧ st1.permissions.queue = st.permissions.queue ++ [perm.id])
       ∨ st1.permissions.queue.Sublist st.permissions.queue) := by
  cases e with
  | messageUpdated info =>
    simp only [mergeEvent] at h
    split at h <;>
    · simp only [Option.some.injEq] at h
      subst h
      exact ⟨hwf, Or.inl rfl⟩
  | messageRemoved sessionID messageID =>
    simp only [mergeEvent] at h
    split at h
    · exact Option.noConfusion h
    · simp only [Option.some.injEq] at h
      subst h
      exact ⟨hwf, Or.inl rfl⟩
  | partUpdated part =>
    simp only [mergeEvent] at h
    split at h
    · exact Option.noConfusion h
    · simp only [Option.some.injEq] at h
      subst h
      exact ⟨hwf, Or.inl rfl⟩
  | partRemoved sessionID messageID partID =>
    simp only [mergeEvent] at h
    split at h
    · exact Option.noConfusion h
    · simp only [Option.some.injEq] at h
      subst h
      exact ⟨hwf, Or.inl rfl⟩
  | permissionUpdated perm =>
    simp only [mergeEvent] at h
    split at h
    · simp only [Option.some.injEq] at h
      subst h
      exact ⟨permWF_announce st.permissions perm hwf (by simpa [eventPermIdOk] using hid),
        Or.inr (Or.inl ⟨perm, rfl, rfl⟩)⟩
    · exact Option.noConfusion h
  | permissionReplied sessionID permissionID =>
    simp only [mergeEvent] at h
    split at h
    · simp only [Option.some.injEq] at h
      subst h
      exact ⟨permWF_remove st.permissions permissionID hwf,
        Or.inr (Or.inr (List.filter_sublist _))⟩
    · exact Option.noConfusion h
  | sessionDeleted sessionID =>
    simp only [mergeEvent] at h
    exact Option.noConfusion h
  | unknownEvent t sid =>
    simp only [mergeEvent] at h
    exact Option.noConfusion h

theorem announcedIds_cons (s : String) (op : ClientOp) (ops : List ClientOp) :
    announcedIds s (op :: ops) = announcedIds s [op] ++ announcedIds s ops := by
  unfold announcedIds
  rw [List.filterMap_cons, List.filterMap_cons, List.filterMap_nil]
  split <;> simp_all

/-- One operation preserves the invariant, extending the allowed announce
history by the operation's own announcements. -/
theorem applyOp_inv (cm : ClientMap) (op : ClientOp) (A : String → List String)
    (hid : opPermIdOk op = true)
    (h : ∀ s st, rget cm s = some st →
          permWellFormed st.permissions ∧ st.permissions.queue.Sublist (A s)) :
    ∀ s st, rget (applyOp cm op) s = some st →
      permWellFormed st.permissions
      ∧ st.permissions.queue.Sublist (A s ++ announcedIds s [op]) := by
  intro s st hr
  cases op with
  | respond now sid pid r =>
    rw [show announcedIds s [ClientOp.respond now sid pid r] = [] from rfl,
      List.append_nil]
    simp only [applyOp] at hr
    cases hcm : rget cm sid with
    | none =>
      rw [show (respondLocal now cm sid pid).1 = cm from by
        simp [respondLocal, hcm]] at hr
      exact h s st hr
    | some st0 =>
      simp only [respondLocal, hcm] at hr
      split at hr
      · by_cases hs : s = sid
        · subst hs
          rw [rget_rset_self] at hr
          simp only [Option.some.injEq] at hr
          subst hr
          exact ⟨permWF_remove st0.permissions pid (h s st0 hcm).1,
            (List.filter_sublist _).trans (h s st0 hcm).2⟩
        · rw [rget_rset_ne _ _ _ _ hs] at hr
          exact h s st hr
      · exact h s st hr
  | ev now e =>
    simp only [applyOp] at hr
    cases hext : extractSessionId e with
    | none =>
      rw [handleEvent_none_sid now cm e hext] at hr
      exact ⟨(h s st hr).1, (h s st hr).2.trans (List.sublist_append_left _ _)⟩
    | some sid =>
      rw [handleEvent_some_sid now cm e sid hext] at hr
      have hst0 : permWellFormed ((rget cm sid).getD (emptySessionState now)).permissions
          ∧ ((rget cm sid).getD (emptySessionState now)).permissions.queue.Sublist (A sid) := by
        cases hcm : rget cm sid with
        | none => exact ⟨permWF_empty now, List.nil_sublist _⟩
        | some stc => simpa [hcm] using h sid stc hcm
      split at hr
      · by_cases hs : s = sid
        · subst hs
          rw [rget_rset_self] at hr
          simp only [Option.some.injEq] at hr
          subst hr
          exact ⟨hst0.1, hst0.2.trans (List.sublist_append_left _ _)⟩
        · rw [rget_rset_ne _ _ _ _ hs] at hr
          exact ⟨(h s st hr).1, (h s st hr).2.trans (List.sublist_append_left _ _)⟩
      · rename_i st1 hmerge
        by_cases hs : s = sid
        · subst hs
          rw [rget_rset_self] at hr
          simp only [Option.some.injEq] at hr
          subst hr
          have hidE : eventPermIdOk e = true := by simpa [opPermIdOk] using hid
          obtain ⟨hwf1, hq⟩ := mergeEvent_perm _ e st1 hmerge hst0.1 hidE
          refine ⟨hwf1, ?_⟩
          show st1.permissions.queue.Sublist _
          rcases hq with hq | ⟨perm, rfl, hq⟩ | hq
          · rw [hq]
            exact hst0.2.trans (List.sublist_append_left _ _)
          · have hpsid : perm.sessionID = s := by
              simp only [extractSessionId] at hext
              split at hext
              · exact Option.noConfusion hext
              · exact Option.some.inj hext
            have hann : announcedIds s [ClientOp.ev now (Event.permissionUpdated perm)]
                = [perm.id] := by
              simp [announcedIds, hpsid]
            rw [hann, hq]
            exact List.Sublist.append hst0.2 (List.Sublist.refl _)
          · exact ((hq.trans hst0.2)).trans (List.sublist_append_left _ _)
        · rw [rget_rset_ne _ _ _ _ hs, rget_rset_ne _ _ _ _ hs] at hr
          exact ⟨(h s st hr).1, (h s st hr).2.trans (List.sublist_append_left _ _)⟩

theorem runOps_inv (ops : List ClientOp) :
    ∀ (cm : ClientMap) (A : String → List String),
      (∀ op ∈ ops, opPermIdOk op = true) →
      (∀ s st, rget cm s = some st →
        permWellFormed st.permissions ∧ st.permissions.queue.Sublist (A s)) →
      ∀ s st, rget (runOps cm ops) s = some st →
        permWellFormed st.permissions
        ∧ st.permissions.queue.Sublist (A s ++ announcedIds s ops) := by
  induction ops with
  | nil =>
    intro cm A _ h s st hr
    have := h s st hr
    exact ⟨this.1, this.2.trans (List.sublist_append_left _ _)⟩
  | cons op ops ih =>
    intro cm A hids h s st hr
    rw [show runOps cm (op :: ops) = runOps (applyOp cm op) ops from rfl] at hr
    have hstep := applyOp_inv cm op A (hids op (List.mem_cons_self op ops)) h
    have hres := ih (applyOp cm op) (fun s' => A s' ++ announcedIds s' [op])
      (fun o ho => hids o (List.mem_cons_of_mem op ho)) hstep s st hr
    refine ⟨hres.1, ?_⟩
    have := hres.2
    rw [List.append_assoc, ← announcedIds_cons] at this
    exact this

/-- C6 counterexample: the state reached by announcing a permission with the
(JS-falsy) empty-string id and then a permission `p2` has a non-empty queue
`["", "p2"]` whose head is `""`, while `activeId` is `"p2"` — the
`if (!activeId)` truthiness test re-assigns `activeId` over the falsy `""`,
so `activeId` is not `queue[0]`. -/
theorem permission_queue_invariant_cex :
    ((rget (runOps [] [ClientOp.ev 1 (Event.permissionUpdated exPermEmptyId),
                       ClientOp.ev 2 (Event.permissionUpdated exPerm2)]) "s1").map
        (fun st => (st.permissions.queue, st.permissions.activeId)))
      = some (["", "p2"], some "p2")
    ∧ ¬ ((some "p2" : Option String) = (["", "p2"] : List String).head?) := by
  decide

/-- C6 (amended): for every state reachable from the empty store by merged
events and respond calls in which no announced permission id is the empty
string (the JS-falsy value), the queue invariant holds after every mutation:
`activeId = queue.head?` (i.e. `queue[0]` when non-empty, unset when empty),
and the queue is a subsequence of the announced ids in announcement order. -/
theorem permission_queue_invariant (ops : List ClientOp)
    (hids : ∀ op ∈ ops, opPermIdOk op = true)
    (sid : String) (st : SessionState)
    (h : rget (runOps [] ops) sid = some st) :
    st.permissions.activeId = st.permissions.queue.head?
    ∧ st.permissions.queue.Sublist (announcedIds sid ops) := by
  have hres := runOps_inv ops [] (fun _ => []) hids
    (fun s st hr => absurd hr (by rw [rget_nil]; exact Option.noConfusion)) sid st h
  exact ⟨hres.1.1, by simpa using hres.2⟩

/-- Witness for the amended C6: one announcement of `p1`. -/
theorem permission_queue_invariant_witness :
    rget (runOps [] [ClientOp.ev 1 (Event.permissionUpdated exPerm1)]) "s1"
      = some exAnnounced1State
    ∧ exAnnounced1State.permissions.activeId = exAnnounced1State.permissions.queue.head?
    ∧ exAnnounced1State.permissions.queue.Sublist
        (announcedIds "s1" [ClientOp.ev 1 (Event.permissionUpdated exPerm1)]) := by
  have h := permission_queue_invariant [ClientOp.ev 1 (Event.permissionUpdated exPerm1)]
    (by decide) "s1" exAnnounced1State (by decide)
  exact ⟨by decide, h.1, h.2⟩

/-! # Claim C8: messages sorted by creation time, stably, after every merge -/

theorem filter_key_orderedInsert (t : Nat) (a : Message) :
    ∀ s : List Message,
      (List.orderedInsert msgLE a s).filter (fun m => msgCreated m = t)
        = if msgCreated a = t
          then a :: s.filter (fun m => msgCreated m = t)
          else s.filter (fun m => msgCreated m = t) := by
  intro s
  induction s with
  | nil =>
    by_cases h : msgCreated a = t <;> simp [List.orderedInsert, h]
  | cons b l ih =>
    by_cases hab : msgLE a b
    · rw [List.orderedInsert, if_pos hab]
      by_cases ha : msgCreated a = t
      · rw [if_pos ha, List.filter_cons_of_pos (by simpa using ha)]
      · rw [if_neg ha, List.filter_cons_of_neg (by simpa using ha)]
    · rw [List.orderedInsert, if_neg hab]
      by_cases ha : msgCreated a = t
      · have hb : ¬ msgCreated b = t := fun hbt =>
          hab (le_of_eq (ha.trans hbt.symm) : msgCreated a ≤ msgCreated b)
        rw [if_pos ha, List.filter_cons_of_neg (by simpa using hb),
          List.filter_cons_of_neg (by simpa using hb), ih, if_pos ha]
      · rw [if_neg ha]
        by_cases hb : msgCreated b = t
        · rw [List.filter_cons_of_pos (by simpa using hb),
            List.filter_cons_of_pos (by simpa using hb), ih, if_neg ha]
        · rw [List.filter_cons_of_neg (by simpa using hb),
            List.filter_cons_of_neg (by simpa using hb), ih, if_neg ha]

/-- The code's sort is stable: it never reorders messages of equal creation
time, so their relative (arrival) order is preserved. -/
theorem filter_key_sortMessages (t : Nat) :
    ∀ l : List Message,
      (sortMessages l).filter (fun m => msgCreated m = t)
        = l.filter (fun m => msgCreated m = t) := by
  intro l
  induction l with
  | nil => rfl
  | cons a l ih =>
    show (List.orderedInsert msgLE a (List.insertionSort msgLE l)).filter _ = _
    rw [filter_key_orderedInsert]
    by_cases ha : msgCreated a = t
    · rw [if_pos ha]
      show a :: (sortMessages l).filter _ = _
      rw [ih, List.filter_cons_of_pos (by simpa using ha)]
    · rw [if_neg ha]
      show (sortMessages l).filter _ = _
      rw [ih, List.filter_cons_of_neg (by simpa using ha)]

/-- C8: whenever a merge mutates a session (a notification is emitted), the
notified message list is the stable sort, by creation timestamp, of the
post-mutation list: it is sorted non-decreasingly by `msgCreated`, and for
every timestamp `t` the messages with that timestamp appear in exactly their
pre-sort (arrival) order. -/
theorem messages_sorted_after_merge (now : Nat) (cm : ClientMap) (e : Event)
    (sid : String) (st : SessionState)
    (h : (handleEvent now cm e).2 = some (sid, st)) :
    List.Sorted msgLE st.messages
    ∧ ∃ st1, mergeEvent ((rget cm sid).getD (emptySessionState now)) e = some st1
        ∧ st.messages = sortMessages st1.messages
        ∧ ∀ t, st.messages.filter (fun m => msgCreated m = t)
            = st1.messages.filter (fun m => msgCreated m = t) := by
  cases hext : extractSessionId e with
  | none =>
    rw [handleEvent_none_sid now cm e hext] at h
    exact Option.noConfusion h
  | some sid' =>
    rw [handleEvent_some_sid now cm e sid' hext] at h
    split at h
    · exact Option.noConfusion h
    · rename_i st1 hmerge
      simp only [Option.some.injEq, Prod.mk.injEq] at h
      obtain ⟨rfl, rfl⟩ := h
      refine ⟨sortMessages_sorted st1.messages, st1, hmerge, rfl, ?_⟩
      intro t
      exact filter_key_sortMessages t st1.messages

/-- Witness for C8: merging one `message.updated` into an empty store. -/
theorem messages_sorted_after_merge_witness :
    (handleEvent 5 [] (Event.messageUpdated exInfo1)).2
      = some ("s1", { messages := [{ info := some exInfo1, parts := [] }]
                      permissions := { byId := [], queue := [] }
                      toolsByCall := []
                      lastUpdate := 5 })
    ∧ List.Sorted msgLE
        ({ messages := [{ info := some exInfo1, parts := [] }]
           permissions := { byId := [], queue := [] }
           toolsByCall := []
           lastUpdate := 5 } : SessionState).messages := by
  refine ⟨by decide, ?_⟩
  exact (messages_sorted_after_merge 5 [] (Event.messageUpdated exInfo1) "s1" _
    (by decide)).1

/-! # Claim C7: the part-upsert merge is idempotent per id -/

theorem opt_or_or_self {α : Type} (a b : Option α) : a.or (a.or b) = a.or b := by
  cases a <;> rfl

theorem opt_or_self {α : Type} (a : Option α) : a.or a = a := by
  cases a <;> rfl

/-- Re-assigning the same event part over an already-assigned part changes
nothing (`Object.assign` with the same source is idempotent). -/
theorem assignPart_assignPart (old p : MessagePart) :
    assignPart (assignPart old p) p = assignPart old p := by
  simp [assignPart, opt_or_or_self]

theorem assignPart_self (p : MessagePart) : assignPart p p = p := by
  simp [assignPart, opt_or_self]

theorem find?_eq_none_of_updateFirstBy_none {α : Type} (p : α → Bool) (f : α → α) :
    ∀ l : List α, updateFirstBy p f l = none → l.find? p = none := by
  intro l
  induction l with
  | nil => intro _; rfl
  | cons a l ih =>
    intro h
    unfold updateFirstBy at h
    by_cases ha : p a
    · rw [if_pos ha] at h
      exact Option.noConfusion h
    · rw [if_neg ha] at h
      rw [List.find?_cons_of_neg _ ha]
      apply ih
      cases hu : updateFirstBy p f l with
      | none => rfl
      | some l₀ =>
        rw [hu] at h
        simp at h

theorem find?_append_left_none {α : Type} (p : α → Bool) (l₁ l₂ : List α)
    (h : l₁.find? p = none) : (l₁ ++ l₂).find? p = l₂.find? p := by
  induction l₁ with
  | nil => rfl
  | cons a l₁ ih =>
    by_cases ha : p a
    · rw [List.find?_cons_of_pos _ ha] at h
      exact Option.noConfusion h
    · rw [List.find?_cons_of_neg _ ha] at h
      rw [List.cons_append, List.find?_cons_of_neg _ ha]
      exact ih h

/-- `updateFirstBy` updates exactly the element `find?` locates: provided the
update preserves the predicate, the new first match is the updated old one. -/
theorem find?_updateFirstBy {α : Type} (p : α → Bool) (f : α → α)
    (hpf : ∀ x, p x = true → p (f x) = true) :
    ∀ l l' : List α, updateFirstBy p f l = some l' →
      ∃ x, l.find? p = some x ∧ l'.find? p = some (f x) := by
  intro l
  induction l with
  | nil => intro l' h; exact Option.noConfusion h
  | cons a l ih =>
    intro l' h
    unfold updateFirstBy at h
    by_cases ha : p a
    · rw [if_pos ha] at h
      simp only [Option.some.injEq] at h
      subst h
      exact ⟨a, List.find?_cons_of_pos _ ha,
        by rw [List.find?_cons_of_pos _ (hpf a ha)]⟩
    · rw [if_neg ha] at h
      cases hu : updateFirstBy p f l with
      | none =>
        rw [hu] at h
        simp at h
      | some l₀ =>
        rw [hu] at h
        simp only [Option.map_some', Option.some.injEq] at h
        subst h
        obtain ⟨x, hx1, hx2⟩ := ih l₀ hu
        exact ⟨x, by rw [List.find?_cons_of_neg _ ha]; exact hx1,
          by rw [List.find?_cons_of_neg _ ha]; exact hx2⟩

/-- If the first match is a fixed point of the update, `updateFirstBy`
returns the list unchanged. -/
theorem updateFirstBy_of_find? {α : Type} (p : α → Bool) (f : α → α) :
    ∀ (l : List α) (x : α), l.find? p = some x → f x = x →
      updateFirstBy p f l = some l := by
  intro l
  induction l with
  | nil => intro x h _; exact Option.noConfusion h
  | cons a l ih =>
    intro x h hf
    by_cases ha : p a
    · rw [List.find?_cons_of_pos _ ha] at h
      simp only [Option.some.injEq] at h
      subst h
      unfold updateFirstBy
      rw [if_pos ha, hf]
    · rw [List.find?_cons_of_neg _ ha] at h
      unfold updateFirstBy
      rw [if_neg ha, ih x h hf]
      rfl

theorem updateFirstBy_filterMap_eq {α β : Type} (p : α → Bool) (f : α → α)
    (g : α → Option β) (hg : ∀ x, g (f x) = g x) :
    ∀ l l' : List α, updateFirstBy p f l = some l' →
      l'.filterMap g = l.filterMap g := by
  intro l
  induction l with
  | nil => intro l' h; exact Option.noConfusion h
  | cons a l ih =>
    intro l' h
    unfold updateFirstBy at h
    by_cases ha : p a
    · rw [if_pos ha] at h
      simp only [Option.some.injEq] at h
      subst h
      rw [List.filterMap_cons, List.filterMap_cons, hg a]
    · rw [if_neg ha] at h
      cases hu : updateFirstBy p f l with
      | none =>
        rw [hu] at h
        simp at h
      | some l₀ =>
        rw [hu] at h
        simp only [Option.map_some', Option.some.injEq] at h
        subst h
        rw [List.filterMap_cons, List.filterMap_cons, ih l₀ hu]

theorem find?_eq_head?_filter {α : Type} (p : α → Bool) :
    ∀ l : List α, l.find? p = (l.filter p).head? := by
  intro l
  induction l with
  | nil => rfl
  | cons a l ih =>
    by_cases ha : p a
    · rw [List.find?_cons_of_pos _ ha, List.filter_cons_of_pos ha]
      rfl
    · rw [List.find?_cons_of_neg _ ha, List.filter_cons_of_neg ha]
      exact ih

/-- With pairwise-distinct message ids, at most one message matches a given
id. -/
theorem length_filter_msgId_le_one (mid : String) :
    ∀ l : List Message, (l.filterMap msgId).Nodup →
      (l.filter (fun m => msgId m = some mid)).length ≤ 1 := by
  intro l
  induction l with
  | nil => intro _; simp
  | cons m l ih =>
    intro h
    cases hm : msgId m with
    | none =>
      have hnm : ¬ (msgId m = some mid) := by
        rw [hm]
        exact fun hh => Option.noConfusion hh
      rw [List.filter_cons_of_neg (by simpa using hnm)]
      apply ih
      simpa [List.filterMap_cons, hm] using h
    | some i =>
      have h' : (i :: l.filterMap msgId).Nodup := by
        simpa [List.filterMap_cons, hm] using h
      rw [List.nodup_cons] at h'
      by_cases hi : i = mid
      · subst hi
        rw [List.filter_cons_of_pos (by simpa using hm)]
        have hnone : l.filter (fun m' => msgId m' = some i) = [] := by
          rw [List.filter_eq_nil_iff]
          intro m' hm' hpm'
          exact h'.1 (List.mem_filterMap.mpr ⟨m', hm', by simpa using hpm'⟩)
        rw [hnone]
        simp
      · have hnm : ¬ (msgId m = some mid) := by
          rw [hm]
          simpa using hi
        rw [List.filter_cons_of_neg (by simpa using hnm)]
        exact ih h'.2

/-- When at most one element matches, `find?` is invariant under
permutation. -/
theorem find?_eq_of_perm_of_le_one {α : Type} (p : α → Bool) {l l' : List α}
    (hperm : l.Perm l') (hlen : (l.filter p).length ≤ 1) :
    l.find? p = l'.find? p := by
  rw [find?_eq_head?_filter, find?_eq_head?_filter]
  have hpf : (l.filter p).Perm (l'.filter p) := hperm.filter p
  cases hf : l.filter p with
  | nil =>
    rw [hf] at hpf
    rw [hpf.symm.eq_nil]
  | cons a t =>
    rw [hf] at hpf hlen
    have ht : t = [] := by
      cases t with
      | nil => rfl
      | cons b u => simp at hlen
    subst ht
    rw [List.perm_singleton.mp hpf.symm]

theorem sortMessages_perm (ms : List Message) : (sortMessages ms).Perm ms :=
  List.perm_insertionSort msgLE ms

/-- C7: merging the same part-upserted event twice, at any two timestamps,
yields the same message list — hence the same fields for that part within
its owning message — and the same tool-call index as merging it once. The
`Nodup` hypothesis says message ids are pairwise distinct, which the
id-keyed `message.updated` upsert maintains. -/
theorem part_upsert_idempotent (st : SessionState) (p : MessagePart) (n1 n2 : Nat)
    (hids : (st.messages.filterMap msgId).Nodup) :
    (applyEvent n2 (applyEvent n1 st (Event.partUpdated p))
        (Event.partUpdated p)).messages
      = (applyEvent n1 st (Event.partUpdated p)).messages
    ∧ (applyEvent n2 (applyEvent n1 st (Event.partUpdated p))
        (Event.partUpdated p)).toolsByCall
      = (applyEvent n1 st (Event.partUpdated p)).toolsByCall := by
  cases hm1 : mergeEvent st (Event.partUpdated p) with
  | none =>
    have happ : applyEvent n1 st (Event.partUpdated p) = st := by
      unfold applyEvent
      rw [hm1]
    rw [happ]
    have happ2 : applyEvent n2 st (Event.partUpdated p) = st := by
      unfold applyEvent
      rw [hm1]
    rw [happ2]
    exact ⟨rfl, rfl⟩
  | some st1 =>
    have hm1' : mergeEvent st (Event.partUpdated p) = some st1 := hm1
    simp only [mergeEvent] at hm1
    split at hm1
    · exact Option.noConfusion hm1
    · rename_i ms hupd
      simp only [Option.some.injEq] at hm1
      have happ1 : applyEvent n1 st (Event.partUpdated p) = finalize n1 st1 := by
        unfold applyEvent
        rw [hm1']
      -- the outer updater preserves the owning-message predicate and the id
      have hfUpd_msgId : ∀ m : Message,
          msgId (match updateFirstBy (fun q => q.id = p.id)
              (fun y => assignPart y p) m.parts with
            | some ps => { m with parts := ps }
            | none => { m with parts := m.parts ++ [p] }) = msgId m := by
        intro m
        cases hux : updateFirstBy (fun q => q.id = p.id)
            (fun y => assignPart y p) m.parts with
        | some ps => rfl
        | none => rfl
      have hpf : ∀ m : Message,
          (decide (msgId m = some p.messageID)) = true →
          (decide (msgId (match updateFirstBy (fun q => q.id = p.id)
              (fun y => assignPart y p) m.parts with
            | some ps => { m with parts := ps }
            | none => { m with parts := m.parts ++ [p] }) = some p.messageID)) = true := by
        intro m hm
        rw [hfUpd_msgId m]
        exact hm
      obtain ⟨m0, hfind0, hfind1⟩ :=
        find?_updateFirstBy _ _ hpf st.messages ms hupd
      -- the inner updater preserves the part-id predicate
      have hQg : ∀ x : MessagePart, (decide (x.id = p.id)) = true →
          (decide ((assignPart x p).id = p.id)) = true := by
        intro x _
        simp [assignPart]
      -- the updated owning message is a fixed point of the updater
      have hfUpd_fix :
          (match updateFirstBy (fun q => q.id = p.id) (fun y => assignPart y p)
              (match updateFirstBy (fun q => q.id = p.id) (fun y => assignPart y p)
                  m0.parts with
                | some ps => { m0 with parts := ps }
                | none => { m0 with parts := m0.parts ++ [p] } : Message).parts with
            | some ps => { (match updateFirstBy (fun q => q.id = p.id)
                  (fun y => assignPart y p) m0.parts with
                | some ps => { m0 with parts := ps }
                | none => { m0 with parts := m0.parts ++ [p] } : Message) with parts := ps }
            | none => { (match updateFirstBy (fun q => q.id = p.id)
                  (fun y => assignPart y p) m0.parts with
                | some ps => { m0 with parts := ps }
                | none => { m0 with parts := m0.parts ++ [p] } : Message) with
                parts := (match updateFirstBy (fun q => q.id = p.id)
                    (fun y => assignPart y p) m0.parts with
                  | some ps => { m0 with parts := ps }
                  | none => { m0 with parts := m0.parts ++ [p] } : Message).parts ++ [p] })
          = (match updateFirstBy (fun q => q.id = p.id) (fun y => assignPart y p)
              m0.parts with
            | some ps => { m0 with parts := ps }
            | none => { m0 with parts := m0.parts ++ [p] }) := by
        cases hux : updateFirstBy (fun q => q.id = p.id)
            (fun y => assignPart y p) m0.parts with
        | some ps =>
          obtain ⟨q0, _, hq1⟩ := find?_updateFirstBy _ _ hQg m0.parts ps hux
          have hfixed : updateFirstBy (fun q => q.id = p.id)
              (fun y => assignPart y p) ps = some ps :=
            updateFirstBy_of_find? _ _ ps (assignPart q0 p) hq1
              (assignPart_assignPart q0 p)
          simp [hfixed]
        | none =>
          have hfn : m0.parts.find? (fun q => q.id = p.id) = none :=
            find?_eq_none_of_updateFirstBy_none _ _ m0.parts hux
          have hfp : (m0.parts ++ [p]).find? (fun q => q.id = p.id) = some p := by
            rw [find?_append_left_none _ m0.parts [p] hfn]
            rw [List.find?_cons_of_pos _ (by simp)]
          have hfixed : updateFirstBy (fun q => q.id = p.id)
              (fun y => assignPart y p) (m0.parts ++ [p])
              = some (m0.parts ++ [p]) :=
            updateFirstBy_of_find? _ _ _ p hfp (assignPart_self p)
          simp [hfixed]
      -- ids are unchanged by the merge, hence still pairwise distinct
      have hms_ids : ms.filterMap msgId = st.messages.filterMap msgId :=
        updateFirstBy_filterMap_eq _ _ msgId hfUpd_msgId st.messages ms hupd
      have hms_nodup : (ms.filterMap msgId).Nodup := by
        rw [hms_ids]
        exact hids
      -- the sorted list still finds the same (unique) owning message
      have hlen : ((sortMessages ms).filter
          (fun m => msgId m = some p.messageID)).length ≤ 1 := by
        rw [((sortMessages_perm ms).filter _).length_eq]
        exact length_filter_msgId_le_one p.messageID ms hms_nodup
      have hsorted_find : (sortMessages ms).find?
          (fun m => msgId m = some p.messageID)
          = some (match updateFirstBy (fun q => q.id = p.id)
              (fun y => assignPart y p) m0.parts with
            | some ps => { m0 with parts := ps }
            | none => { m0 with parts := m0.parts ++ [p] }) := by
        rw [find?_eq_of_perm_of_le_one _ (sortMessages_perm ms) hlen]
        exact hfind1
      have hupd2 : updateFirstBy (fun m => msgId m = some p.messageID)
          (fun m =>
            match updateFirstBy (fun q => q.id = p.id)
                (fun y => assignPart y p) m.parts with
            | some ps => { m with parts := ps }
            | none => { m with parts := m.parts ++ [p] })
          (sortMessages ms) = some (sortMessages ms) :=
        updateFirstBy_of_find? _ _ (sortMessages ms) _ hsorted_find hfUpd_fix
      have hmsg_eq : (finalize n1 st1).messages = sortMessages ms := by
        rw [← hm1]
        rfl
      have hm2 : mergeEvent (finalize n1 st1) (Event.partUpdated p)
          = some { finalize n1 st1 with
              messages := sortMessages ms
              toolsByCall :=
                match toolEntryOf p with
                | some (c, entry) => rset (finalize n1 st1).toolsByCall c entry
                | none => (finalize n1 st1).toolsByCall } := by
        simp only [mergeEvent, hmsg_eq, hupd2]
      have happ2 : applyEvent n2 (finalize n1 st1) (Event.partUpdated p)
          = finalize n2 { finalize n1 st1 with
              messages := sortMessages ms
              toolsByCall :=
                match toolEntryOf p with
                | some (c, entry) => rset (finalize n1 st1).toolsByCall c entry
                | none => (finalize n1 st1).toolsByCall } := by
        unfold applyEvent
        rw [hm2]
      constructor
      · rw [happ1, happ2]
        show sortMessages (sortMessages ms) = (finalize n1 st1).messages
        rw [sortMessages_idem, hmsg_eq]
      · rw [happ1, happ2]
        show (match toolEntryOf p with
              | some (c, entry) => rset (finalize n1 st1).toolsByCall c entry
              | none => (finalize n1 st1).toolsByCall)
            = (finalize n1 st1).toolsByCall
        have htool : (finalize n1 st1).toolsByCall
            = (match toolEntryOf p with
               | some (c, entry) => rset st.toolsByCall c entry
               | none => st.toolsByCall) := by
          rw [← hm1]
          rfl
        rw [htool]
        cases hte : toolEntryOf p with
        | none => rfl
        | some ce =>
          obtain ⟨c, entry⟩ := ce
          show rset (rset st.toolsByCall c entry) c entry = rset st.toolsByCall c entry
          exact rset_rset st.toolsByCall c entry entry

/-- Witness for C7: upserting the same tool part twice into a state holding
its owning message. -/
theorem part_upsert_idempotent_witness :
    (exStateMsg.messages.filterMap msgId).Nodup
    ∧ (applyEvent 8 (applyEvent 7 exStateMsg (Event.partUpdated exToolPart))
        (Event.partUpdated exToolPart)).messages
      = (applyEvent 7 exStateMsg (Event.partUpdated exToolPart)).messages := by
  refine ⟨by decide, ?_⟩
  exact (part_upsert_idempotent exStateMsg exToolPart 7 8 (by decide)).1

end OpencodeChat
